import Mathlib

/-!
Verification of the eser binary codec (serializer / deserializer) against a
shallow embedding of its C++ sources.

The embedding models:
  * the type classifier and size calculator of src/ser/tools/utils.hpp
    (serialized_size_of),
  * the encode path of src/eser/binary/serializer.tpp
    (the serialize_impl overloads and serializer::to),
  * the decode path of src/ser/binary/deserializer.tpp
    (deserializer::deserialize_impl for scalars and arrays, deserializer::to,
    and the deserialize factory).

Machine values are modelled by their bit patterns: a scalar of byte width w is
a natural number below 256^w, and memcpy of such an object on the
little-endian host (the host assumption stated in the sources and the spec)
produces its w little-endian bytes.  Debug-only assert statements that are
compiled out under NDEBUG are modelled by their release behaviour, which is
the behaviour described by the specification.
-/

namespace Eser

/-- A byte, as stored in the caller's buffers: a natural number below 256. -/
abbrev Byte := Nat

/-- The encoding strategies of the type classifier.  An arithmetic type, an
enum (via its underlying integer) and a trivially copyable aggregate are all
encoded as a raw little-endian copy of their w object bytes, so they share the
scalar strategy with byte width w.  A fixed array of extent n has element
width w.  The const char pointer strategy is the null-terminated text one. -/
inductive Ty : Type
  | scalar (w : Nat)
  | array (w n : Nat)
  | cstring
  deriving DecidableEq

/-- A runtime value bound to the serializer, identified by its bit pattern:
a scalar of width w carries its object representation as a natural number
below 256^w; an array carries the bit patterns of its elements; a C string
carries its content bytes (terminator excluded). -/
inductive Val : Type
  | scalar (w : Nat) (v : Nat)
  | array (w : Nat) (elems : List Nat)
  | cstr (content : List Byte)
  deriving DecidableEq

/-- The static type of a bound value. -/
def Val.tyOf : Val → Ty
  | .scalar w _ => .scalar w
  | .array w elems => .array w elems.length
  | .cstr _ => .cstring

/-- Whether a value uses the C string strategy. -/
def Val.isCStr : Val → Bool
  | .cstr _ => true
  | _ => false

/-- Well-formedness of a bound value: bit patterns fit the declared widths,
and C string content bytes are nonzero bytes (the content precedes the first
null terminator). -/
def Val.wf : Val → Prop
  | .scalar w v => v < 256 ^ w
  | .array w elems => ∀ x ∈ elems, x < 256 ^ w
  | .cstr content => ∀ b ∈ content, 0 < b ∧ b < 256

instance : DecidablePred Val.wf := by
  intro v
  cases v <;> simp [Val.wf] <;> infer_instance

/-- The w little-endian bytes of the bit pattern v: what memcpy reads out of
a w-byte scalar object on the little-endian host. -/
def toLE : Nat → Nat → List Byte
  | 0, _ => []
  | w + 1, v => v % 256 :: toLE w (v / 256)

/-- Recombining little-endian bytes into a bit pattern: what memcpy into a
w-byte scalar object makes that object hold on the little-endian host. -/
def fromLE : List Byte → Nat
  | [] => 0
  | b :: bs => b + 256 * fromLE bs

/-- Size calculator of src/ser/tools/utils.hpp, serialized_size_of for a
single type: sizeof for arithmetic, enum-underlying, array and trivially
copyable class types; the const char pointer branch is a static assertion
failure (no instantiation compiles), modelled as none. -/
def serialized_size_of : Ty → Option Nat
  | .scalar w => some w
  | .array w n => some (w * n)
  | .cstring => none

/-- Variadic serialized_size_of: the fold expression summing the individual
sizes, in argument order; it fails to compile as soon as one type does. -/
def serialized_size_of_list : List Ty → Option Nat
  | [] => some 0
  | t :: ts =>
    match serialized_size_of t, serialized_size_of_list ts with
    | some a, some b => some (a + b)
    | _, _ => none

/-- The memcpy of the bytes bs into the buffer at displacement off from the
region base, as performed by the serialize_impl overloads: the written window
replaces the previous contents, everything else is untouched. -/
def writeBytes (buf : List Byte) (off : Nat) (bs : List Byte) : List Byte :=
  buf.take off ++ bs ++ buf.drop (off + bs.length)

/-- The encode cursor of serializer::to: the caller's buffer region, the
displacement of the advancing buffer pointer from the region base, and the
remaining-capacity counter that the serialize_impl overloads decrement. -/
structure EncSt : Type where
  buf : List Byte
  off : Nat
  size : Nat
  deriving DecidableEq

/-- serialize_impl for an arithmetic scalar (also reached for an enum through
the underlying-type cast, and textually identical for a trivially copyable
aggregate): memcpy the w object bytes, advance the buffer pointer by w,
decrement the remaining size by w and return w. -/
def serialize_scalar (w v : Nat) (st : EncSt) : EncSt × Nat :=
  (⟨writeBytes st.buf st.off (toLE w v), st.off + w, st.size - w⟩, w)

/-- serialize_impl for a fixed array: serialize each element in index order,
summing the returned byte counts.  The early-break guard of the source
(bytes == 0 with a positive element size) can never fire, because the scalar
overload always returns the positive element size, so the loop is a plain
left-to-right pass over the elements. -/
def serialize_array (w : Nat) : List Nat → EncSt → EncSt × Nat
  | [], st => (st, 0)
  | e :: es, st =>
    let p := serialize_scalar w e st
    let q := serialize_array w es p.1
    (q.1, p.2 + q.2)

/-- serialize_impl for a const char pointer: probe length = strlen + 1 for
the terminator, memcpy content and terminator, advance the buffer pointer and
decrement the remaining size by that length, and return it. -/
def serialize_cstr (content : List Byte) (st : EncSt) : EncSt × Nat :=
  (⟨writeBytes st.buf st.off (content ++ [0]),
    st.off + (content.length + 1), st.size - (content.length + 1)⟩,
   content.length + 1)

/-- Dispatch of the serialize_impl overload set on one bound value. -/
def serialize_impl (st : EncSt) : Val → EncSt × Nat
  | .scalar w v => serialize_scalar w v st
  | .array w elems => serialize_array w elems st
  | .cstr content => serialize_cstr content st

/-- The fold expression of serializer::to, applying serialize_impl to every
bound value in declaration order and summing the returned byte counts. -/
def serialize_fold (st : EncSt) : List Val → EncSt × Nat
  | [] => (st, 0)
  | v :: vs =>
    let p := serialize_impl st v
    let q := serialize_fold p.1 vs
    (q.1, p.2 + q.2)

/-- The serializer of src/eser/binary/serializer.hpp: it holds the tuple of
bound values. -/
structure serializer : Type where
  _args : List Val
  deriving DecidableEq

/-- serializer::to(buffer, size): compute the compile-time needed size of all
bound types via the variadic serialized_size_of (none models the static
assertion making the instantiation ill-formed); if needed exceeds the
capacity, return 0 without touching the buffer (the debug-only assert is
compiled out under NDEBUG); otherwise run the serialize_impl fold and return
the total written.  The result pairs the final buffer contents with the
returned byte count; the capacity is the length of the supplied region. -/
def serializer.to (s : serializer) (buf : List Byte) : Option (List Byte × Nat) :=
  match serialized_size_of_list (s._args.map Val.tyOf) with
  | none => none
  | some needed =>
    if buf.length < needed then
      some (buf, 0)
    else
      let p := serialize_fold ⟨buf, 0, buf.length⟩ s._args
      some (p.1.buf, p.2)

/-- The serialize factory: it static-asserts at least one bound value and
packs the arguments into a serializer. -/
def serialize (args : List Val) : Option serializer :=
  if args.isEmpty then none else some ⟨args⟩

/-- The decode cursor of src/ser/binary/deserializer.tpp: the borrowed byte
region, the displacement of the advancing data pointer from the region base,
and the remaining-length counter. -/
structure deserializer : Type where
  data : List Byte
  pos : Nat
  len : Nat
  deriving DecidableEq

/-- deserialize_impl for a non-array type of byte width w: if the remaining
length is below w, return the zero value of the type (all object bytes zero,
so bit pattern 0) and leave the cursor untouched; otherwise memcpy w bytes
from the data pointer into the result object, advance the data pointer by w
and decrement the remaining length by w. -/
def deserialize_impl_scalar (w : Nat) (d : deserializer) : Nat × deserializer :=
  if d.len < w then
    (0, d)
  else
    (fromLE ((d.data.drop d.pos).take w), ⟨d.data, d.pos + w, d.len - w⟩)

/-- The element loop of deserialize_impl for an array type: saved is the
remaining length captured before the loop, i the index of the next element,
and the last argument the count of elements still to produce.  While
(i + 1) * w fits in saved, read one element through the scalar
deserialize_impl; as soon as it does not, fill every remaining slot with the
element type's zero value and stop consuming. -/
def arrayLoop (w saved : Nat) (i : Nat) (d : deserializer) :
    Nat → List Nat × deserializer
  | 0 => ([], d)
  | fuel + 1 =>
    if (i + 1) * w ≤ saved then
      let p := deserialize_impl_scalar w d
      let q := arrayLoop w saved (i + 1) p.2 fuel
      (p.1 :: q.1, q.2)
    else
      (List.replicate (fuel + 1) 0, d)

/-- deserialize_impl for an array type of extent n and element width w:
capture the remaining length, run the element loop from index 0, and return
the n produced elements. -/
def deserialize_impl_array (w n : Nat) (d : deserializer) :
    List Nat × deserializer :=
  arrayLoop w d.len 0 d n

/-- The zero value a failed read of a given type produces: for a scalar the
all-zero bit pattern, for an array the array of element zero values. -/
def zeroValOf : Ty → Val
  | .scalar w => .scalar w 0
  | .array w n => .array w (List.replicate n 0)
  | .cstring => .cstr []

/-- Dispatch of deserialize_impl on one requested type.  No decode overload
exists for the const char pointer strategy (the deserializer's to methods
accept only scalar and array types), modelled as none. -/
def deserialize_impl_ty (t : Ty) (d : deserializer) :
    Option (Val × deserializer) :=
  match t with
  | .scalar w =>
    let p := deserialize_impl_scalar w d
    some (.scalar w p.1, p.2)
  | .array w n =>
    let p := deserialize_impl_array w n d
    some (.array w p.1, p.2)
  | .cstring => none

/-- deserializer::to over a sequence of requested types: one deserialize_impl
per type, left to right (the braced initializer list of the source sequences
the calls in template-argument order), collecting the results in that order.
The debug-only length assertion is compiled out under NDEBUG; the release
behaviour modelled here is the degrade policy of deserialize_impl. -/
def deserializer.to (d : deserializer) : List Ty → Option (List Val × deserializer)
  | [] => some ([], d)
  | t :: ts =>
    match deserialize_impl_ty t d with
    | none => none
    | some (v, d1) =>
      match d1.to ts with
      | none => none
      | some (vs, d2) => some (v :: vs, d2)

/-- The deserialize factory: a null data pointer (none) is a fatal
precondition violation — the assertion fires and the decode cursor is never
constructed; from a non-null pointer it constructs the cursor over the given
region with the given length. -/
def deserialize (data : Option (List Byte)) (length : Nat) : Option deserializer :=
  match data with
  | none => none
  | some region => some ⟨region, 0, length⟩

/-- The little-endian bytes of an array value: element encodings in index
order, contiguous. -/
def flattenLE (w : Nat) : List Nat → List Byte
  | [] => []
  | e :: es => toLE w e ++ flattenLE w es

/-- The bytes one serialize_impl call emits at the cursor for a value. -/
def encodeVal : Val → List Byte
  | .scalar w v => toLE w v
  | .array w elems => flattenLE w elems
  | .cstr content => content ++ [0]

/-- The bytes the serialize_impl fold emits for a value sequence. -/
def encodeList : List Val → List Byte
  | [] => []
  | v :: vs => encodeVal v ++ encodeList vs

/-- The encoded byte size of one value (for a C string the runtime length,
content plus terminator). -/
def sizeOfVal : Val → Nat
  | .scalar w _ => w
  | .array w elems => w * elems.length
  | .cstr content => content.length + 1

/-- The encoded byte size of a value sequence. -/
def sizeOfList : List Val → Nat
  | [] => 0
  | v :: vs => sizeOfVal v + sizeOfList vs

/-- The two's-complement byte pattern a signed 8-bit integer value leaves in
memory: its value reduced modulo 256. -/
def int8bits (v : Int) : Nat := (v % 256).toNat

/-- The bit pattern of an IEEE-754 single-precision value from its sign bit,
biased 8-bit exponent field and 23-bit fraction field. -/
def float32bits (sign expo frac : Nat) : Nat :=
  sign * 2 ^ 31 + expo * 2 ^ 23 + frac

@[simp] theorem length_toLE (w v : Nat) : (toLE w v).length = w := by
  induction w generalizing v with
  | zero => rfl
  | succ w ih => simp [toLE, ih]

theorem fromLE_toLE {w v : Nat} (h : v < 256 ^ w) : fromLE (toLE w v) = v := by
  induction w generalizing v with
  | zero =>
    simp [pow_zero, Nat.lt_one_iff] at h
    simp [h, toLE, fromLE]
  | succ w ih =>
    have hdiv : v / 256 < 256 ^ w := by
      rw [Nat.div_lt_iff_lt_mul (by norm_num : 0 < 256)]
      calc v < 256 ^ (w + 1) := h
        _ = 256 ^ w * 256 := by rw [pow_succ]
    simp [toLE, fromLE, ih hdiv]
    omega

/-- The sign, exponent field and fraction field used for 3.5f below do
denote three and a half: the IEEE-754 single value they encode, namely
(-1)^sign * (1 + frac / 2^23) * 2^(field - 127), equals 7 / 2. -/
theorem float32_fields_denote_3_5 :
    (-1 : ℚ) ^ 0 * (1 + (3 * 2 ^ 21 : ℚ) / 2 ^ 23) * 2 ^ (128 - 127) = 7 / 2
      ∧ float32bits 0 128 (3 * 2 ^ 21) = 0x40600000 := by
  constructor
  · norm_num
  · rfl

@[simp] theorem length_flattenLE (w : Nat) (elems : List Nat) :
    (flattenLE w elems).length = w * elems.length := by
  induction elems with
  | nil => simp [flattenLE]
  | cons e es ih => simp [flattenLE, ih, Nat.mul_succ, Nat.add_comm]

@[simp] theorem length_encodeVal (v : Val) :
    (encodeVal v).length = sizeOfVal v := by
  cases v <;> simp [encodeVal, sizeOfVal]

@[simp] theorem length_encodeList (vs : List Val) :
    (encodeList vs).length = sizeOfList vs := by
  induction vs with
  | nil => rfl
  | cons v vs ih => simp [encodeList, sizeOfList, ih]

theorem length_writeBytes (buf : List Byte) (off : Nat) (bs : List Byte)
    (h : off ≤ buf.length) :
    (writeBytes buf off bs).length = max buf.length (off + bs.length) := by
  simp [writeBytes, Nat.min_eq_left h]
  omega

theorem writeBytes_take (buf : List Byte) (off : Nat) (bs : List Byte)
    (h : off ≤ buf.length) :
    (writeBytes buf off bs).take (off + bs.length) = buf.take off ++ bs := by
  unfold writeBytes
  exact List.take_left' (by simp [Nat.min_eq_left h])

theorem writeBytes_drop (buf : List Byte) (off : Nat) (bs : List Byte)
    (h : off ≤ buf.length) (k : Nat) :
    (writeBytes buf off bs).drop (off + bs.length + k)
      = buf.drop (off + bs.length + k) := by
  unfold writeBytes
  have hlen : (buf.take off ++ bs).length = off + bs.length := by
    simp [Nat.min_eq_left h]
  rw [show off + bs.length + k = (buf.take off ++ bs).length + k by rw [hlen]]
  rw [List.drop_append, List.drop_drop, hlen]

theorem writeBytes_append (buf : List Byte) (off : Nat) (bs cs : List Byte)
    (h : off ≤ buf.length) :
    writeBytes (writeBytes buf off bs) (off + bs.length) cs
      = writeBytes buf off (bs ++ cs) := by
  have hrfl : writeBytes (writeBytes buf off bs) (off + bs.length) cs
      = (writeBytes buf off bs).take (off + bs.length) ++ cs
          ++ (writeBytes buf off bs).drop (off + bs.length + cs.length) := rfl
  rw [hrfl, writeBytes_take _ _ _ h, writeBytes_drop _ _ _ h]
  unfold writeBytes
  simp [Nat.add_assoc]

theorem serialize_scalar_spec (w v : Nat) (st : EncSt) :
    serialize_scalar w v st
      = (⟨writeBytes st.buf st.off (toLE w v), st.off + w, st.size - w⟩, w) := rfl

theorem serialize_array_spec (w : Nat) (elems : List Nat) :
    ∀ st : EncSt, st.off ≤ st.buf.length →
      serialize_array w elems st
        = (⟨writeBytes st.buf st.off (flattenLE w elems),
            st.off + w * elems.length, st.size - w * elems.length⟩,
           w * elems.length) := by
  induction elems with
  | nil =>
    intro st h
    simp [serialize_array, flattenLE, writeBytes]
  | cons e es ih =>
    intro st h
    have hstep : serialize_array w (e :: es) st
        = ((serialize_array w es
              ⟨writeBytes st.buf st.off (toLE w e), st.off + w, st.size - w⟩).1,
           w + (serialize_array w es
              ⟨writeBytes st.buf st.off (toLE w e), st.off + w, st.size - w⟩).2) := rfl
    have h1 : st.off + w ≤ (writeBytes st.buf st.off (toLE w e)).length := by
      rw [length_writeBytes _ _ _ h]
      simp
    rw [hstep, ih _ h1]
    have hw : st.off + w = st.off + (toLE w e).length := by simp
    simp only [Prod.mk.injEq, EncSt.mk.injEq]
    refine ⟨⟨?_, ?_, ?_⟩, ?_⟩
    · show writeBytes (writeBytes st.buf st.off (toLE w e)) (st.off + w)
          (flattenLE w es) = _
      rw [hw, writeBytes_append _ _ _ _ h]
      simp [flattenLE]
    · show st.off + w + w * es.length = st.off + w * (es.length + 1)
      have h2 : w * (es.length + 1) = w * es.length + w := by ring
      omega
    · show st.size - w - w * es.length = st.size - w * (es.length + 1)
      have h2 : w * (es.length + 1) = w * es.length + w := by ring
      omega
    · show w + w * es.length = w * (es.length + 1)
      have h2 : w * (es.length + 1) = w * es.length + w := by ring
      omega

theorem serialize_impl_spec (v : Val) (st : EncSt) (h : st.off ≤ st.buf.length) :
    serialize_impl st v
      = (⟨writeBytes st.buf st.off (encodeVal v),
          st.off + sizeOfVal v, st.size - sizeOfVal v⟩,
         sizeOfVal v) := by
  cases v with
  | scalar w x => rfl
  | array w elems =>
    simpa [serialize_impl, encodeVal, sizeOfVal] using serialize_array_spec w elems st h
  | cstr content => rfl

theorem serialize_fold_spec (vs : List Val) :
    ∀ st : EncSt, st.off ≤ st.buf.length →
      serialize_fold st vs
        = (⟨writeBytes st.buf st.off (encodeList vs),
            st.off + sizeOfList vs, st.size - sizeOfList vs⟩,
           sizeOfList vs) := by
  induction vs with
  | nil =>
    intro st h
    simp [serialize_fold, encodeList, sizeOfList, writeBytes]
  | cons v vs ih =>
    intro st h
    have hstep : serialize_fold st (v :: vs)
        = ((serialize_fold (serialize_impl st v).1 vs).1,
           (serialize_impl st v).2 + (serialize_fold (serialize_impl st v).1 vs).2) := rfl
    rw [hstep, serialize_impl_spec v st h]
    have h1 : st.off + sizeOfVal v
        ≤ (writeBytes st.buf st.off (encodeVal v)).length := by
      rw [length_writeBytes _ _ _ h]
      simp
    rw [ih _ h1]
    simp only [Prod.mk.injEq, EncSt.mk.injEq]
    refine ⟨⟨?_, ?_, ?_⟩, rfl⟩
    · show writeBytes (writeBytes st.buf st.off (encodeVal v))
          (st.off + sizeOfVal v) (encodeList vs) = _
      rw [show st.off + sizeOfVal v = st.off + (encodeVal v).length by simp]
      rw [writeBytes_append _ _ _ _ h]
      rfl
    · show st.off + sizeOfVal v + sizeOfList vs = st.off + (sizeOfVal v + sizeOfList vs)
      omega
    · show st.size - sizeOfVal v - sizeOfList vs = st.size - (sizeOfVal v + sizeOfList vs)
      omega

/-- The compile-time needed size of a C-string-free value pack coincides with
the runtime byte count of its encoding. -/
theorem serialized_size_of_list_eq (vs : List Val)
    (h : ∀ v ∈ vs, v.isCStr = false) :
    serialized_size_of_list (vs.map Val.tyOf) = some (sizeOfList vs) := by
  induction vs with
  | nil => rfl
  | cons v vs ih =>
    have hv : v.isCStr = false := h v (by simp)
    have htail := ih (fun x hx => h x (by simp [hx]))
    cases v with
    | scalar w x =>
      simp [serialized_size_of_list, Val.tyOf, serialized_size_of, htail,
        sizeOfList, sizeOfVal]
    | array w elems =>
      simp [serialized_size_of_list, Val.tyOf, serialized_size_of, htail,
        sizeOfList, sizeOfVal]
    | cstr content => simp [Val.isCStr] at hv

/-- Characterization of serializer::to on a C-string-free pack with enough
capacity: the encoded bytes are written at the start of the buffer, the rest
of the buffer is untouched, and the encoded size is returned. -/
theorem serializer_to_spec (vs : List Val) (buf : List Byte)
    (h : ∀ v ∈ vs, v.isCStr = false) (hcap : sizeOfList vs ≤ buf.length) :
    serializer.to ⟨vs⟩ buf
      = some (encodeList vs ++ buf.drop (sizeOfList vs), sizeOfList vs) := by
  unfold serializer.to
  rw [serialized_size_of_list_eq vs h]
  simp only [Nat.not_lt.mpr hcap, if_neg (Nat.not_lt.mpr hcap)]
  rw [serialize_fold_spec vs ⟨buf, 0, buf.length⟩ (by simp)]
  simp [writeBytes]

theorem deserialize_impl_scalar_read (w : Nat) (d : deserializer) (v : Nat)
    (rest : List Byte) (hw : w ≤ d.len) (hv : v < 256 ^ w)
    (hdata : d.data.drop d.pos = toLE w v ++ rest) :
    deserialize_impl_scalar w d = (v, ⟨d.data, d.pos + w, d.len - w⟩) := by
  unfold deserialize_impl_scalar
  rw [if_neg (Nat.not_lt.mpr hw), hdata, List.take_left' (by simp), fromLE_toLE hv]

theorem arrayLoop_success (w saved : Nat) (elems : List Nat) :
    ∀ (i : Nat) (d : deserializer) (rest : List Byte),
      d.len = saved - i * w → i * w ≤ saved →
      (i + elems.length) * w ≤ saved →
      (∀ x ∈ elems, x < 256 ^ w) →
      d.data.drop d.pos = flattenLE w elems ++ rest →
      arrayLoop w saved i d elems.length
        = (elems, ⟨d.data, d.pos + w * elems.length, d.len - w * elems.length⟩) := by
  induction elems with
  | nil =>
    intro i d rest h1 h2 h3 h4 h5
    simp [arrayLoop]
  | cons e es ih =>
    intro i d rest h1 h2 h3 h4 h5
    have hlen : (e :: es).length = es.length + 1 := rfl
    have hmono : (i + 1) * w ≤ (i + (es.length + 1)) * w :=
      Nat.mul_le_mul_right _ (by omega)
    have hc : (i + 1) * w ≤ saved := by rw [hlen] at h3; omega
    have hiw : (i + 1) * w = i * w + w := by ring
    have hw : w ≤ d.len := by omega
    have hread : deserialize_impl_scalar w d = (e, ⟨d.data, d.pos + w, d.len - w⟩) := by
      refine deserialize_impl_scalar_read w d e (flattenLE w es ++ rest) hw
        (h4 e (by simp)) ?_
      rw [h5]
      simp [flattenLE]
    have hrec := ih (i + 1) ⟨d.data, d.pos + w, d.len - w⟩ rest
      (by simp; omega) hc
      (by
        have heq : (i + 1 + es.length) * w = (i + (es.length + 1)) * w := by ring
        rw [hlen] at h3
        omega)
      (fun x hx => h4 x (by simp [hx]))
      (by
        show d.data.drop (d.pos + w) = flattenLE w es ++ rest
        have hdd : d.data.drop (d.pos + w) = (d.data.drop d.pos).drop w := by
          rw [List.drop_drop]
        rw [hdd, h5]
        show (toLE w e ++ flattenLE w es ++ rest).drop w = _
        rw [List.append_assoc, List.drop_left' (by simp)])
    show arrayLoop w saved i d (es.length + 1) = _
    simp only [arrayLoop]
    rw [if_pos hc, hread]
    show (e :: (arrayLoop w saved (i + 1) ⟨d.data, d.pos + w, d.len - w⟩ es.length).1,
          (arrayLoop w saved (i + 1) ⟨d.data, d.pos + w, d.len - w⟩ es.length).2) = _
    rw [hrec]
    have hm : w * (es.length + 1) = w + w * es.length := by ring
    simp only [Prod.mk.injEq, deserializer.mk.injEq, List.length_cons]
    exact ⟨trivial, trivial, by omega, by omega⟩

theorem arrayLoop_spec (w saved : Nat) (hw : 0 < w) :
    ∀ (fuel i : Nat) (d : deserializer),
      d.len = saved - i * w → i * w ≤ saved →
      arrayLoop w saved i d fuel
        = ((List.range fuel).map fun j =>
             if (i + j + 1) * w ≤ saved
             then fromLE ((d.data.drop (d.pos + j * w)).take w) else 0,
           ⟨d.data, d.pos + min fuel (saved / w - i) * w,
            d.len - min fuel (saved / w - i) * w⟩) := by
  intro fuel
  induction fuel with
  | zero =>
    intro i d h1 h2
    simp [arrayLoop]
  | succ fuel ih =>
    intro i d h1 h2
    by_cases hc : (i + 1) * w ≤ saved
    · have hiw : (i + 1) * w = i * w + w := by ring
      have hwle : w ≤ d.len := by omega
      have hread : deserialize_impl_scalar w d
          = (fromLE ((d.data.drop d.pos).take w),
             ⟨d.data, d.pos + w, d.len - w⟩) := by
        unfold deserialize_impl_scalar
        rw [if_neg (Nat.not_lt.mpr hwle)]
      have hrec := ih (i + 1) ⟨d.data, d.pos + w, d.len - w⟩ (by simp; omega) hc
      show arrayLoop w saved i d (fuel + 1) = _
      simp only [arrayLoop]
      rw [if_pos hc, hread]
      show (fromLE ((d.data.drop d.pos).take w)
              :: (arrayLoop w saved (i + 1) ⟨d.data, d.pos + w, d.len - w⟩ fuel).1,
            (arrayLoop w saved (i + 1) ⟨d.data, d.pos + w, d.len - w⟩ fuel).2) = _
      rw [hrec]
      dsimp only
      have hdivstep : i + 1 ≤ saved / w := (Nat.le_div_iff_mul_le hw).mpr hc
      have hdivge : i ≤ saved / w := by omega
      have hminsucc : min (fuel + 1) (saved / w - i)
          = min fuel (saved / w - (i + 1)) + 1 := by
        rw [show saved / w - i = saved / w - (i + 1) + 1 by omega]
        exact Nat.succ_min_succ fuel (saved / w - (i + 1))
      have hmw : (min fuel (saved / w - (i + 1)) + 1) * w
          = min fuel (saved / w - (i + 1)) * w + w := by ring
      simp only [Prod.mk.injEq, deserializer.mk.injEq, true_and]
      refine ⟨?_, ?_, ?_⟩
      · rw [List.range_succ_eq_map, List.map_cons, List.map_map]
        congr 1
        · simp only [Nat.add_zero, Nat.zero_mul]
          rw [if_pos hc]
        · refine List.map_congr_left ?_
          intro j hj
          simp only [Function.comp_apply]
          rw [show i + 1 + j + 1 = i + Nat.succ j + 1 by omega,
            show d.pos + w + j * w = d.pos + Nat.succ j * w by
              simp [Nat.succ_mul]
              ring]
      · rw [hminsucc, hmw]
        omega
      · rw [hminsucc, hmw]
        omega
    · show arrayLoop w saved i d (fuel + 1) = _
      simp only [arrayLoop]
      rw [if_neg hc]
      have hdivlt : saved / w < i + 1 := by
        by_contra hcon
        exact hc ((Nat.le_div_iff_mul_le hw).mp (by omega))
      have hsub : saved / w - i = 0 := by omega
      simp only [Prod.mk.injEq, deserializer.mk.injEq, hsub, true_and]
      refine ⟨?_, by simp⟩
      symm
      refine List.eq_replicate_iff.mpr ⟨by simp, ?_⟩
      intro b hb
      obtain ⟨j, hj, rfl⟩ := List.mem_map.mp hb
      have hmono : (i + 1) * w ≤ (i + j + 1) * w :=
        Nat.mul_le_mul_right _ (by omega)
      rw [if_neg (by omega)]

theorem deserialize_impl_array_spec (w n : Nat) (hw : 0 < w) (d : deserializer) :
    deserialize_impl_array w n d
      = ((List.range n).map fun j =>
           if (j + 1) * w ≤ d.len
           then fromLE ((d.data.drop (d.pos + j * w)).take w) else 0,
         ⟨d.data, d.pos + min n (d.len / w) * w,
          d.len - min n (d.len / w) * w⟩) := by
  unfold deserialize_impl_array
  simpa using arrayLoop_spec w d.len hw n 0 d (by simp) (by simp)

theorem deserialize_impl_array_success (w : Nat) (elems : List Nat)
    (d : deserializer) (rest : List Byte)
    (hlen : w * elems.length ≤ d.len) (hwf : ∀ x ∈ elems, x < 256 ^ w)
    (hdata : d.data.drop d.pos = flattenLE w elems ++ rest) :
    deserialize_impl_array w elems.length d
      = (elems, ⟨d.data, d.pos + w * elems.length,
                 d.len - w * elems.length⟩) := by
  unfold deserialize_impl_array
  exact arrayLoop_success w d.len elems 0 d rest (by simp) (by simp)
    (by simpa [Nat.mul_comm] using hlen) hwf hdata

theorem deserializer_to_success (vs : List Val) :
    ∀ (d : deserializer) (rest : List Byte),
      (∀ v ∈ vs, v.wf) → (∀ v ∈ vs, v.isCStr = false) →
      sizeOfList vs ≤ d.len →
      d.data.drop d.pos = encodeList vs ++ rest →
      deserializer.to d (vs.map Val.tyOf)
        = some (vs, ⟨d.data, d.pos + sizeOfList vs,
                     d.len - sizeOfList vs⟩) := by
  induction vs with
  | nil =>
    intro d rest h1 h2 h3 h4
    show some ([], d) = _
    simp only [sizeOfList, Nat.add_zero, Nat.sub_zero]
  | cons v vs ih =>
    intro d rest hwf hcs hsz hdata
    have hszv : sizeOfVal v + sizeOfList vs ≤ d.len := hsz
    have hdata1 : d.data.drop d.pos = encodeVal v ++ (encodeList vs ++ rest) := by
      rw [hdata]
      show encodeVal v ++ encodeList vs ++ rest = _
      rw [List.append_assoc]
    have hdrop1 : d.data.drop (d.pos + sizeOfVal v) = encodeList vs ++ rest := by
      have hdd : d.data.drop (d.pos + sizeOfVal v)
          = (d.data.drop d.pos).drop (sizeOfVal v) := by rw [List.drop_drop]
      rw [hdd, hdata1, List.drop_left' (by simp)]
    have hrec := ih ⟨d.data, d.pos + sizeOfVal v, d.len - sizeOfVal v⟩ rest
      (fun x hx => hwf x (by simp [hx]))
      (fun x hx => hcs x (by simp [hx]))
      (by show sizeOfList vs ≤ d.len - sizeOfVal v; omega)
      (by exact hdrop1)
    dsimp only at hrec
    have hstep : deserialize_impl_ty (Val.tyOf v) d
        = some (v, ⟨d.data, d.pos + sizeOfVal v, d.len - sizeOfVal v⟩) := by
      cases v with
      | scalar w x =>
        have hx : x < 256 ^ w := hwf (Val.scalar w x) (by simp)
        have hwle : w ≤ d.len := by
          have h := hszv
          simp only [sizeOfVal] at h
          omega
        have hread := deserialize_impl_scalar_read w d x (encodeList vs ++ rest)
          hwle hx (by simpa [encodeVal] using hdata1)
        show some (Val.scalar w (deserialize_impl_scalar w d).1,
                   (deserialize_impl_scalar w d).2) = _
        rw [hread]
        rfl
      | array w elems =>
        have helems : ∀ y ∈ elems, y < 256 ^ w := hwf (Val.array w elems) (by simp)
        have hwle : w * elems.length ≤ d.len := by
          have h := hszv
          simp only [sizeOfVal] at h
          omega
        have hread := deserialize_impl_array_success w elems d (encodeList vs ++ rest)
          hwle helems (by simpa [encodeVal] using hdata1)
        show some (Val.array w (deserialize_impl_array w elems.length d).1,
                   (deserialize_impl_array w elems.length d).2) = _
        rw [hread]
        rfl
      | cstr content =>
        have hcc := hcs (Val.cstr content) (by simp)
        simp [Val.isCStr] at hcc
    show deserializer.to d (Val.tyOf v :: vs.map Val.tyOf) = _
    simp only [deserializer.to]
    rw [hstep]
    dsimp only
    rw [hrec]
    have hs : sizeOfList (v :: vs) = sizeOfVal v + sizeOfList vs := rfl
    simp only [Option.some.injEq, Prod.mk.injEq, deserializer.mk.injEq, hs, true_and]
    exact ⟨by omega, by omega⟩

theorem deserialize_impl_scalar_inv (w : Nat) (d : deserializer) :
    (deserialize_impl_scalar w d).2.data = d.data ∧
    (deserialize_impl_scalar w d).2.pos + (deserialize_impl_scalar w d).2.len
      = d.pos + d.len ∧
    (deserialize_impl_scalar w d).2.len ≤ d.len := by
  unfold deserialize_impl_scalar
  split
  · exact ⟨rfl, rfl, Nat.le_refl _⟩
  · next h =>
    refine ⟨rfl, ?_, ?_⟩
    · show d.pos + w + (d.len - w) = d.pos + d.len
      omega
    · show d.len - w ≤ d.len
      omega

theorem arrayLoop_inv (w saved : Nat) :
    ∀ (fuel i : Nat) (d : deserializer),
      (arrayLoop w saved i d fuel).2.data = d.data ∧
      (arrayLoop w saved i d fuel).2.pos + (arrayLoop w saved i d fuel).2.len
        = d.pos + d.len ∧
      (arrayLoop w saved i d fuel).2.len ≤ d.len := by
  intro fuel
  induction fuel with
  | zero =>
    intro i d
    exact ⟨rfl, rfl, Nat.le_refl _⟩
  | succ fuel ih =>
    intro i d
    show (arrayLoop w saved i d (fuel + 1)).2.data = d.data ∧ _ ∧ _
    simp only [arrayLoop]
    split
    · have h1 := deserialize_impl_scalar_inv w d
      have h2 := ih (i + 1) (deserialize_impl_scalar w d).2
      dsimp only
      refine ⟨h2.1.trans h1.1, ?_, ?_⟩
      · rw [h2.2.1, h1.2.1]
      · exact Nat.le_trans h2.2.2 h1.2.2
    · exact ⟨rfl, rfl, Nat.le_refl _⟩

theorem deserialize_impl_ty_inv (t : Ty) (h : t ≠ Ty.cstring) (d : deserializer) :
    ∃ v d1, deserialize_impl_ty t d = some (v, d1) ∧
      d1.data = d.data ∧ d1.pos + d1.len = d.pos + d.len ∧ d1.len ≤ d.len := by
  cases t with
  | scalar w =>
    exact ⟨_, _, rfl, deserialize_impl_scalar_inv w d⟩
  | array w n =>
    exact ⟨_, _, rfl, arrayLoop_inv w d.len n 0 d⟩
  | cstring => exact absurd rfl h

theorem deserializer_to_inv (ts : List Ty) :
    ∀ d : deserializer, (∀ t ∈ ts, t ≠ Ty.cstring) →
      ∃ vs d2, deserializer.to d ts = some (vs, d2) ∧
        d2.data = d.data ∧ d2.pos + d2.len = d.pos + d.len ∧ d2.len ≤ d.len := by
  induction ts with
  | nil =>
    intro d h
    exact ⟨[], d, rfl, rfl, rfl, Nat.le_refl _⟩
  | cons t ts ih =>
    intro d h
    obtain ⟨v, d1, hstep, hd1, hp1, hl1⟩ :=
      deserialize_impl_ty_inv t (h t (by simp)) d
    obtain ⟨vs, d2, hrec, hd2, hp2, hl2⟩ := ih d1 (fun x hx => h x (by simp [hx]))
    refine ⟨v :: vs, d2, ?_, hd2.trans hd1, hp2.trans hp1, Nat.le_trans hl2 hl1⟩
    show deserializer.to d (t :: ts) = _
    simp only [deserializer.to]
    rw [hstep]
    dsimp only
    rw [hrec]

theorem take_drop_window {l1 l2 : List Byte} {p n w : Nat} (hw : w ≤ n)
    (h : l1.take (p + n) = l2.take (p + n)) :
    (l1.drop p).take w = (l2.drop p).take w := by
  have h1 : ∀ l : List Byte, (l.drop p).take w = ((l.take (p + n)).drop p).take w := by
    intro l
    rw [List.drop_take, show p + n - p = n by omega, List.take_take,
      Nat.min_eq_left hw]
  rw [h1 l1, h1 l2, h]

theorem deserialize_impl_scalar_det (w : Nat) (d e : deserializer)
    (hp : e.pos = d.pos) (hl : e.len = d.len)
    (hd : e.data.take (e.pos + e.len) = d.data.take (d.pos + d.len)) :
    (deserialize_impl_scalar w e).1 = (deserialize_impl_scalar w d).1 ∧
    (deserialize_impl_scalar w e).2.pos = (deserialize_impl_scalar w d).2.pos ∧
    (deserialize_impl_scalar w e).2.len = (deserialize_impl_scalar w d).2.len := by
  unfold deserialize_impl_scalar
  rw [hp, hl] at hd ⊢
  by_cases hlt : d.len < w
  · simp only [if_pos hlt]
    exact ⟨trivial, hp, hl⟩
  · simp only [if_neg hlt]
    exact ⟨congrArg fromLE (take_drop_window (Nat.not_lt.mp hlt) hd), trivial, trivial⟩

theorem arrayLoop_det (w saved : Nat) :
    ∀ (fuel i : Nat) (d e : deserializer),
      e.pos = d.pos → e.len = d.len →
      e.data.take (e.pos + e.len) = d.data.take (d.pos + d.len) →
      (arrayLoop w saved i e fuel).1 = (arrayLoop w saved i d fuel).1 ∧
      (arrayLoop w saved i e fuel).2.pos = (arrayLoop w saved i d fuel).2.pos ∧
      (arrayLoop w saved i e fuel).2.len = (arrayLoop w saved i d fuel).2.len := by
  intro fuel
  induction fuel with
  | zero =>
    intro i d e hp hl hd
    exact ⟨rfl, hp, hl⟩
  | succ fuel ih =>
    intro i d e hp hl hd
    show ((arrayLoop w saved i e (fuel + 1)).1 = _) ∧ _ ∧ _
    simp only [arrayLoop]
    split
    · have hs := deserialize_impl_scalar_det w d e hp hl hd
      have hinvd := deserialize_impl_scalar_inv w d
      have hinve := deserialize_impl_scalar_inv w e
      have hrec := ih (i + 1) (deserialize_impl_scalar w d).2
        (deserialize_impl_scalar w e).2 hs.2.1 hs.2.2
        (by
          rw [hinve.1, hinvd.1, hinve.2.1, hinvd.2.1]
          exact hd)
      dsimp only
      exact ⟨by rw [hs.1, hrec.1], hrec.2.1, hrec.2.2⟩
    · exact ⟨rfl, hp, hl⟩

theorem deserialize_impl_ty_det (t : Ty) (h : t ≠ Ty.cstring)
    (d e : deserializer)
    (hp : e.pos = d.pos) (hl : e.len = d.len)
    (hd : e.data.take (e.pos + e.len) = d.data.take (d.pos + d.len)) :
    ∃ v d1 e1, deserialize_impl_ty t d = some (v, d1) ∧
      deserialize_impl_ty t e = some (v, e1) ∧
      e1.pos = d1.pos ∧ e1.len = d1.len := by
  cases t with
  | scalar w =>
    have hs := deserialize_impl_scalar_det w d e hp hl hd
    refine ⟨_, _, _, rfl, ?_, hs.2.1, hs.2.2⟩
    show some (Val.scalar w (deserialize_impl_scalar w e).1, _) = _
    rw [hs.1]
  | array w n =>
    have hl2 : arrayLoop w e.len 0 e n = arrayLoop w d.len 0 e n := by rw [hl]
    have ha := arrayLoop_det w d.len n 0 d e hp hl hd
    refine ⟨Val.array w (arrayLoop w d.len 0 d n).1, (arrayLoop w d.len 0 d n).2,
      (arrayLoop w d.len 0 e n).2, rfl, ?_, ha.2.1, ha.2.2⟩
    show some (Val.array w (arrayLoop w e.len 0 e n).1, (arrayLoop w e.len 0 e n).2) = _
    rw [hl2, ha.1]
  | cstring => exact absurd rfl h

theorem deserializer_to_det (ts : List Ty) :
    ∀ (d e : deserializer), (∀ t ∈ ts, t ≠ Ty.cstring) →
      e.pos = d.pos → e.len = d.len →
      e.data.take (e.pos + e.len) = d.data.take (d.pos + d.len) →
      ∃ vs d2 e2, deserializer.to d ts = some (vs, d2) ∧
        deserializer.to e ts = some (vs, e2) ∧
        e2.pos = d2.pos ∧ e2.len = d2.len := by
  induction ts with
  | nil =>
    intro d e h hp hl hd
    exact ⟨[], d, e, rfl, rfl, hp, hl⟩
  | cons t ts ih =>
    intro d e h hp hl hd
    obtain ⟨v, d1, e1, hstepd, hstepe, hp1, hl1⟩ :=
      deserialize_impl_ty_det t (h t (by simp)) d e hp hl hd
    obtain ⟨_, dd1, hstepd', hdatad, hsumd, _⟩ :=
      deserialize_impl_ty_inv t (h t (by simp)) d
    obtain ⟨_, ee1, hstepe', hdatae, hsume, _⟩ :=
      deserialize_impl_ty_inv t (h t (by simp)) e
    rw [hstepd] at hstepd'
    rw [hstepe] at hstepe'
    obtain ⟨rfl⟩ : dd1 = d1 := by
      cases hstepd'
      rfl
    obtain ⟨rfl⟩ : ee1 = e1 := by
      cases hstepe'
      rfl
    obtain ⟨vs, d2, e2, hrecd, hrece, hp2, hl2⟩ := ih d1 e1
      (fun x hx => h x (by simp [hx])) hp1 hl1
      (by
        rw [hdatad, hdatae, hsumd, hsume]
        exact hd)
    refine ⟨v :: vs, d2, e2, ?_, ?_, hp2, hl2⟩
    · show deserializer.to d (t :: ts) = _
      simp only [deserializer.to]
      rw [hstepd]
      dsimp only
      rw [hrecd]
    · show deserializer.to e (t :: ts) = _
      simp only [deserializer.to]
      rw [hstepe]
      dsimp only
      rw [hrece]

theorem writeBytes_window (buf : List Byte) (off : Nat) (bs : List Byte)
    (h : off ≤ buf.length) :
    ((writeBytes buf off bs).drop off).take bs.length = bs := by
  have hdrop : (writeBytes buf off bs).drop off
      = bs ++ buf.drop (off + bs.length) := by
    unfold writeBytes
    rw [List.append_assoc, List.drop_left' (by simp [Nat.min_eq_left h])]
  rw [hdrop, List.take_left]

theorem arrayLoop_exhausted (w : Nat) :
    ∀ (fuel i : Nat) (d : deserializer), d.len = 0 →
      arrayLoop w 0 i d fuel = (List.replicate fuel 0, d) := by
  intro fuel
  induction fuel with
  | zero =>
    intro i d h
    rfl
  | succ fuel ih =>
    intro i d h
    show arrayLoop w 0 i d (fuel + 1) = _
    simp only [arrayLoop]
    by_cases hw : (i + 1) * w ≤ 0
    · rw [if_pos hw]
      have hw0 : w = 0 := by
        rcases Nat.mul_eq_zero.mp (Nat.le_zero.mp hw) with hi | hw0
        · omega
        · exact hw0
      subst hw0
      have hp : deserialize_impl_scalar 0 d = (0, d) := by
        unfold deserialize_impl_scalar
        rw [if_neg (by omega)]
        rfl
      rw [hp]
      dsimp only
      rw [ih (i + 1) d h]
      rfl
    · rw [if_neg hw]

theorem deserialize_impl_scalar_exhausted (w : Nat) (d : deserializer)
    (h : d.len = 0) : deserialize_impl_scalar w d = (0, d) := by
  unfold deserialize_impl_scalar
  by_cases hw : d.len < w
  · rw [if_pos hw]
  · rw [if_neg hw]
    have hw0 : w = 0 := by omega
    subst hw0
    rfl


theorem deserialize_impl_ty_exhausted (t : Ty) (h : t ≠ Ty.cstring)
    (d : deserializer) (h0 : d.len = 0) :
    deserialize_impl_ty t d = some (zeroValOf t, d) := by
  cases t with
  | scalar w =>
    show some (Val.scalar w (deserialize_impl_scalar w d).1,
               (deserialize_impl_scalar w d).2) = _
    rw [deserialize_impl_scalar_exhausted w d h0]
    rfl
  | array w n =>
    show some (Val.array w (arrayLoop w d.len 0 d n).1,
               (arrayLoop w d.len 0 d n).2) = _
    rw [h0, arrayLoop_exhausted w n 0 d h0]
    rfl
  | cstring => exact absurd rfl h

/-- C1.  Round-trip with order preservation: for every C-string-free sequence
of well-formed supported values and every buffer of sufficient capacity,
serializer::to writes the sequence and returns its encoded size, and
deserializer::to on the produced buffer with the same type sequence (in the
same order) returns exactly the original values in the same positional order;
the single-value round-trip is the singleton instance. -/
theorem roundtrip_order_preservation (vs : List Val) (buf : List Byte)
    (hwf : ∀ v ∈ vs, v.wf) (hcs : ∀ v ∈ vs, v.isCStr = false)
    (hcap : sizeOfList vs ≤ buf.length) :
    ∃ out : List Byte,
      serializer.to ⟨vs⟩ buf = some (out, sizeOfList vs) ∧
      ∃ d2 : deserializer,
        deserializer.to ⟨out, 0, buf.length⟩ (vs.map Val.tyOf)
          = some (vs, d2) := by
  refine ⟨encodeList vs ++ buf.drop (sizeOfList vs),
    serializer_to_spec vs buf hcs hcap, ?_⟩
  refine ⟨_, deserializer_to_success vs
    ⟨encodeList vs ++ buf.drop (sizeOfList vs), 0, buf.length⟩
    (buf.drop (sizeOfList vs)) hwf hcs ?_ ?_⟩
  · exact hcap
  · show (encodeList vs ++ buf.drop (sizeOfList vs)).drop 0 = _
    rfl

/-- C1 witness: a two-value sequence (one scalar, one array) round-trips
through a 5-byte buffer in order. -/
theorem roundtrip_order_preservation_witness :
    (∀ v ∈ [Val.scalar 1 5, Val.array 2 [300, 1]], v.wf) ∧
    (∀ v ∈ [Val.scalar 1 5, Val.array 2 [300, 1]], v.isCStr = false) ∧
    sizeOfList [Val.scalar 1 5, Val.array 2 [300, 1]]
      ≤ (List.replicate 5 0).length ∧
    ∃ out : List Byte,
      serializer.to ⟨[Val.scalar 1 5, Val.array 2 [300, 1]]⟩
          (List.replicate 5 0)
        = some (out, sizeOfList [Val.scalar 1 5, Val.array 2 [300, 1]]) ∧
      ∃ d2 : deserializer,
        deserializer.to ⟨out, 0, (List.replicate 5 0).length⟩
            ([Val.scalar 1 5, Val.array 2 [300, 1]].map Val.tyOf)
          = some ([Val.scalar 1 5, Val.array 2 [300, 1]], d2) :=
  ⟨by decide, by decide, by decide,
   roundtrip_order_preservation [Val.scalar 1 5, Val.array 2 [300, 1]]
     (List.replicate 5 0) (by decide) (by decide) (by decide)⟩

/-- C2.  Capacity boundary and atomic failure: on a C-string-free pack,
serializer::to with capacity exactly the needed encoded size (which the
compile-time size calculator reports as the sum of the per-value sizes)
writes the encoding and returns that needed size; with any capacity below
the needed size it returns 0 and leaves the buffer exactly as it was. -/
theorem capacity_boundary (vs : List Val) (buf1 buf2 : List Byte)
    (hcs : ∀ v ∈ vs, v.isCStr = false)
    (h1 : buf1.length = sizeOfList vs)
    (h2 : buf2.length < sizeOfList vs) :
    serialized_size_of_list (vs.map Val.tyOf) = some (sizeOfList vs) ∧
    serializer.to ⟨vs⟩ buf1 = some (encodeList vs, sizeOfList vs) ∧
    serializer.to ⟨vs⟩ buf2 = some (buf2, 0) := by
  refine ⟨serialized_size_of_list_eq vs hcs, ?_, ?_⟩
  · have hs := serializer_to_spec vs buf1 hcs (Nat.le_of_eq h1.symm)
    rw [hs]
    have hnil : buf1.drop (sizeOfList vs) = [] :=
      List.drop_eq_nil_of_le (Nat.le_of_eq h1)
    rw [hnil, List.append_nil]
  · unfold serializer.to
    rw [serialized_size_of_list_eq vs hcs]
    dsimp only
    rw [if_pos h2]

/-- C2 witness: a 3-byte pack encodes into exactly 3 bytes and fails
atomically into 2. -/
theorem capacity_boundary_witness :
    (∀ v ∈ [Val.scalar 2 1234, Val.scalar 1 7], v.isCStr = false) ∧
    (List.replicate 3 9).length = sizeOfList [Val.scalar 2 1234, Val.scalar 1 7] ∧
    (List.replicate 2 9).length < sizeOfList [Val.scalar 2 1234, Val.scalar 1 7] ∧
    (serialized_size_of_list ([Val.scalar 2 1234, Val.scalar 1 7].map Val.tyOf)
        = some (sizeOfList [Val.scalar 2 1234, Val.scalar 1 7]) ∧
     serializer.to ⟨[Val.scalar 2 1234, Val.scalar 1 7]⟩ (List.replicate 3 9)
        = some (encodeList [Val.scalar 2 1234, Val.scalar 1 7],
                sizeOfList [Val.scalar 2 1234, Val.scalar 1 7]) ∧
     serializer.to ⟨[Val.scalar 2 1234, Val.scalar 1 7]⟩ (List.replicate 2 9)
        = some (List.replicate 2 9, 0)) :=
  ⟨by decide, by decide, by decide,
   capacity_boundary [Val.scalar 2 1234, Val.scalar 1 7]
     (List.replicate 3 9) (List.replicate 2 9) (by decide) (by decide) (by decide)⟩

/-- C3.  Array degrade policy on decode: deserialize_impl for an array of n
elements of positive width w reads element j exactly when (j + 1) * w still
fits in the remaining length captured at the start of the call, fills every
remaining slot with the element zero value once the source is exhausted, and
consumes exactly min n (len / w) whole elements worth of bytes — no partial
element is consumed.  The quoted int32[4]-from-10-bytes instance is the
witness below. -/
theorem array_degrade_policy (w n : Nat) (hw : 0 < w) (d : deserializer) :
    deserialize_impl_array w n d
      = ((List.range n).map fun j =>
           if (j + 1) * w ≤ d.len
           then fromLE ((d.data.drop (d.pos + j * w)).take w) else 0,
         ⟨d.data, d.pos + min n (d.len / w) * w,
          d.len - min n (d.len / w) * w⟩) :=
  deserialize_impl_array_spec w n hw d

/-- C3 witness: decoding int32[4] from a 10-byte source yields the first two
elements decoded little-endian, the last two zero, and consumes exactly
8 bytes, leaving 2. -/
theorem array_degrade_policy_witness :
    0 < 4 ∧
    deserialize_impl_array 4 4 ⟨[1, 2, 3, 4, 5, 6, 7, 8, 9, 10], 0, 10⟩
      = ([0x04030201, 0x08070605, 0, 0],
         ⟨[1, 2, 3, 4, 5, 6, 7, 8, 9, 10], 8, 2⟩) :=
  ⟨by decide,
   (array_degrade_policy 4 4 (by decide)
      ⟨[1, 2, 3, 4, 5, 6, 7, 8, 9, 10], 0, 10⟩).trans (by decide)⟩

/-- C4.  Scalar degrade policy on decode: a scalar (or enum or trivially
copyable aggregate) read of width w from a cursor whose remaining length is
below w yields the zero value and leaves the cursor completely unchanged —
no partial consumption. -/
theorem scalar_degrade_policy (w : Nat) (d : deserializer) (h : d.len < w) :
    deserialize_impl_scalar w d = (0, d) := by
  unfold deserialize_impl_scalar
  rw [if_pos h]

/-- C4 witness: an int32 read from a 2-byte source yields 0 and the cursor
still holds the same 2 remaining bytes. -/
theorem scalar_degrade_policy_witness :
    (2 : Nat) < 4 ∧
    deserialize_impl_scalar 4 ⟨[0xAA, 0xBB], 0, 2⟩
      = (0, ⟨[0xAA, 0xBB], 0, 2⟩) :=
  ⟨by decide, scalar_degrade_policy 4 ⟨[0xAA, 0xBB], 0, 2⟩ (by decide)⟩

/-- C5.  Concrete wire format: serializing uint16 1234, int8 -5 (two's
complement byte pattern) and float 3.5 (IEEE-754 single with exponent field
128 and fraction field 3 * 2^21) into any buffer of capacity at least 7
writes exactly the bytes D2 04 FB 00 00 60 40 at the start, returns 7, and
deserializing the same three types from those 7 bytes returns the three
original values in order with the cursor exhausted. -/
theorem wire_format_scenario (buf : List Byte) (hcap : 7 ≤ buf.length) :
    serializer.to ⟨[Val.scalar 2 1234, Val.scalar 1 (int8bits (-5)),
                    Val.scalar 4 (float32bits 0 128 (3 * 2 ^ 21))]⟩ buf
      = some ([0xD2, 0x04, 0xFB, 0x00, 0x00, 0x60, 0x40] ++ buf.drop 7, 7) ∧
    deserializer.to ⟨[0xD2, 0x04, 0xFB, 0x00, 0x00, 0x60, 0x40], 0, 7⟩
        [Ty.scalar 2, Ty.scalar 1, Ty.scalar 4]
      = some ([Val.scalar 2 1234, Val.scalar 1 (int8bits (-5)),
               Val.scalar 4 (float32bits 0 128 (3 * 2 ^ 21))],
              ⟨[0xD2, 0x04, 0xFB, 0x00, 0x00, 0x60, 0x40], 7, 0⟩) := by
  constructor
  · have hs := serializer_to_spec
      [Val.scalar 2 1234, Val.scalar 1 (int8bits (-5)),
       Val.scalar 4 (float32bits 0 128 (3 * 2 ^ 21))] buf
      (by decide) (by show 7 ≤ buf.length; exact hcap)
    rw [hs]
    rfl
  · rfl

/-- C5 witness: the encode half instantiated at a concrete all-zero 7-byte
buffer. -/
theorem wire_format_scenario_witness :
    7 ≤ (List.replicate 7 0).length ∧
    (serializer.to ⟨[Val.scalar 2 1234, Val.scalar 1 (int8bits (-5)),
                     Val.scalar 4 (float32bits 0 128 (3 * 2 ^ 21))]⟩
         (List.replicate 7 0)
       = some ([0xD2, 0x04, 0xFB, 0x00, 0x00, 0x60, 0x40]
                 ++ (List.replicate 7 0).drop 7, 7) ∧
     deserializer.to ⟨[0xD2, 0x04, 0xFB, 0x00, 0x00, 0x60, 0x40], 0, 7⟩
         [Ty.scalar 2, Ty.scalar 1, Ty.scalar 4]
       = some ([Val.scalar 2 1234, Val.scalar 1 (int8bits (-5)),
                Val.scalar 4 (float32bits 0 128 (3 * 2 ^ 21))],
               ⟨[0xD2, 0x04, 0xFB, 0x00, 0x00, 0x60, 0x40], 7, 0⟩)) :=
  ⟨by decide, wire_format_scenario (List.replicate 7 0) (by decide)⟩

/-- C6.  Size additivity: on every C-string-free type list the variadic
serialized_size_of is defined and equals the sum of the individual
serialized_size_of values taken in argument order; being a function of the
type list alone, it needs no runtime value. -/
theorem size_additivity (ts : List Ty) (h : ∀ t ∈ ts, t ≠ Ty.cstring) :
    serialized_size_of_list ts
      = some ((ts.map fun t => (serialized_size_of t).getD 0).sum) := by
  induction ts with
  | nil => rfl
  | cons t ts ih =>
    have htail := ih (fun x hx => h x (by simp [hx]))
    cases t with
    | scalar w =>
      simp [serialized_size_of_list, serialized_size_of, htail]
    | array w n =>
      simp [serialized_size_of_list, serialized_size_of, htail]
    | cstring => exact absurd rfl (h Ty.cstring (by simp))

/-- C6 witness: a three-type list sums to 4 + 12 + 8 = 24 bytes. -/
theorem size_additivity_witness :
    (∀ t ∈ [Ty.scalar 4, Ty.array 4 3, Ty.scalar 8], t ≠ Ty.cstring) ∧
    serialized_size_of_list [Ty.scalar 4, Ty.array 4 3, Ty.scalar 8]
      = some (([Ty.scalar 4, Ty.array 4 3, Ty.scalar 8].map
          fun t => (serialized_size_of t).getD 0).sum) :=
  ⟨by decide,
   size_additivity [Ty.scalar 4, Ty.array 4 3, Ty.scalar 8] (by decide)⟩

/-- C7 counterexample: the claim says serializer::to accepts a C string
value and probes its needed size as content length + 1 at that point.  In
the code, serializer::to computes needed as the compile-time
serialized_size_of over every bound type, and the size calculator's const
char pointer branch is a static assertion failure, so a pack holding a C
string value (here, the one-character string "a" with a 2-byte buffer, for
which the claim predicts a successful 2-byte write) has no well-formed
serializer::to instantiation at all: the run is none, not a write. -/
theorem cstring_to_counterexample :
    serializer.to ⟨[Val.cstr [97]]⟩ (List.replicate 2 0) = none ∧
    serialized_size_of Ty.cstring = none :=
  ⟨rfl, rfl⟩

/-- C7 amended.  The write path of serialize_impl for a const char pointer
behaves as claimed: it writes the content bytes followed by one zero
terminator, strlen + 1 bytes in total, advances the cursor by exactly that
amount, decrements the remaining capacity by it and returns it, leaving the
buffer length unchanged; but no needed-size probe for a C string happens in
serializer::to — the compile-time size calculator rejects the C string
strategy, so a const char pointer value cannot flow through to's
needed-size pre-check. -/
theorem cstring_write_path (content : List Byte) (st : EncSt)
    (h : st.off + (content.length + 1) ≤ st.buf.length) :
    (serialize_impl st (Val.cstr content)).2 = content.length + 1 ∧
    (serialize_impl st (Val.cstr content)).1.off
      = st.off + (content.length + 1) ∧
    (serialize_impl st (Val.cstr content)).1.size
      = st.size - (content.length + 1) ∧
    (serialize_impl st (Val.cstr content)).1.buf.length = st.buf.length ∧
    (((serialize_impl st (Val.cstr content)).1.buf.drop st.off).take
        (content.length + 1))
      = content ++ [0] ∧
    serialized_size_of (Val.tyOf (Val.cstr content)) = none := by
  have hoff : st.off ≤ st.buf.length := by omega
  refine ⟨rfl, rfl, rfl, ?_, ?_, rfl⟩
  · show (writeBytes st.buf st.off (content ++ [0])).length = st.buf.length
    rw [length_writeBytes st.buf st.off (content ++ [0]) hoff]
    simp only [List.length_append, List.length_cons, List.length_nil]
    omega
  · show ((writeBytes st.buf st.off (content ++ [0])).drop st.off).take
        (content.length + 1) = content ++ [0]
    have hwin := writeBytes_window st.buf st.off (content ++ [0]) hoff
    simpa using hwin

/-- C7 amended witness: writing the string "hi" at offset 0 of a 5-byte
buffer emits 104 105 0, returns 3 and leaves the last 2 bytes alone. -/
theorem cstring_write_path_witness :
    (0 + ([104, 105] : List Byte).length + 1 ≤ (List.replicate 5 9).length) ∧
    ((serialize_impl ⟨List.replicate 5 9, 0, 5⟩ (Val.cstr [104, 105])).2
        = ([104, 105] : List Byte).length + 1 ∧
     (serialize_impl ⟨List.replicate 5 9, 0, 5⟩ (Val.cstr [104, 105])).1.off
        = 0 + (([104, 105] : List Byte).length + 1) ∧
     (serialize_impl ⟨List.replicate 5 9, 0, 5⟩ (Val.cstr [104, 105])).1.size
        = 5 - (([104, 105] : List Byte).length + 1) ∧
     (serialize_impl ⟨List.replicate 5 9, 0, 5⟩
         (Val.cstr [104, 105])).1.buf.length = (List.replicate 5 9).length ∧
     (((serialize_impl ⟨List.replicate 5 9, 0, 5⟩
           (Val.cstr [104, 105])).1.buf.drop 0).take
          (([104, 105] : List Byte).length + 1))
        = [104, 105] ++ [0] ∧
     serialized_size_of (Val.tyOf (Val.cstr [104, 105])) = none) :=
  ⟨by decide,
   cstring_write_path [104, 105] ⟨List.replicate 5 9, 0, 5⟩ (by decide)⟩

/-- C8.  Exhaustion is absorbing: every single decode step (for a scalar or
array type — the C string strategy has no decode path) succeeds, never
increases the remaining length, keeps the region end (pos + len) fixed, and,
once the cursor is exhausted (remaining length 0), returns the type's zero
value and leaves the cursor exactly as it was, so the cursor stays callable
and exhausted forever. -/
theorem exhaustion_absorbing (t : Ty) (h : t ≠ Ty.cstring) (d : deserializer) :
    ∃ v d1, deserialize_impl_ty t d = some (v, d1) ∧
      d1.len ≤ d.len ∧
      d1.pos + d1.len = d.pos + d.len ∧
      (d.len = 0 → v = zeroValOf t ∧ d1 = d) := by
  obtain ⟨v, d1, hstep, hdata, hsum, hle⟩ := deserialize_impl_ty_inv t h d
  refine ⟨v, d1, hstep, hle, hsum, fun h0 => ?_⟩
  have hz := deserialize_impl_ty_exhausted t h d h0
  rw [hstep] at hz
  have hz2 := Option.some.inj hz
  exact ⟨congrArg Prod.fst hz2, congrArg Prod.snd hz2⟩

/-- C8 witness: on an exhausted cursor, an int32 read yields the scalar zero
value and the cursor is untouched. -/
theorem exhaustion_absorbing_witness :
    (Ty.scalar 4 ≠ Ty.cstring) ∧
    ∃ v d1, deserialize_impl_ty (Ty.scalar 4) ⟨[7, 7], 2, 0⟩ = some (v, d1) ∧
      d1.len ≤ (0 : Nat) ∧
      d1.pos + d1.len = 2 + 0 ∧
      ((0 : Nat) = 0 → v = zeroValOf (Ty.scalar 4) ∧ d1 = ⟨[7, 7], 2, 0⟩) :=
  ⟨by decide, exhaustion_absorbing (Ty.scalar 4) (by decide) ⟨[7, 7], 2, 0⟩⟩

/-- C9.  InvalidSource: constructing a decode cursor from a null data
pointer is a fatal precondition violation — the deserialize factory never
yields a cursor in that case, whatever length is passed. -/
theorem invalid_source_null : ∀ length : Nat, deserialize none length = none :=
  fun _ => rfl

/-- C10.  End-of-region invariant: decoding any C-string-free type sequence
always succeeds and the resulting cursor keeps the borrowed region and its
end unchanged (same data, pos + len preserved), the remaining length never
increases, and the decoded values and final cursor position depend only on
the bytes below the region end fixed at construction — a cursor over any
byte list agreeing on the first pos + len bytes decodes the same values to
the same position, so no read ever looks past the end. -/
theorem end_region_invariant (ts : List Ty) (h : ∀ t ∈ ts, t ≠ Ty.cstring)
    (d : deserializer) :
    ∃ vs d2, deserializer.to d ts = some (vs, d2) ∧
      d2.data = d.data ∧
      d2.pos + d2.len = d.pos + d.len ∧
      d2.len ≤ d.len ∧
      ∀ e : deserializer, e.pos = d.pos → e.len = d.len →
        e.data.take (d.pos + d.len) = d.data.take (d.pos + d.len) →
        ∃ e2, deserializer.to e ts = some (vs, e2) ∧
          e2.pos = d2.pos ∧ e2.len = d2.len := by
  obtain ⟨vs, d2, hto, hdata, hsum, hle⟩ := deserializer_to_inv ts d h
  refine ⟨vs, d2, hto, hdata, hsum, hle, ?_⟩
  intro e hp hl hd
  obtain ⟨vs2, d22, e2, htod, htoe, hp2, hl2⟩ :=
    deserializer_to_det ts d e h hp hl (by rw [hp, hl]; exact hd)
  rw [hto] at htod
  have hpair := Option.some.inj htod
  have hvs : vs = vs2 := congrArg Prod.fst hpair
  have hd2 : d2 = d22 := congrArg Prod.snd hpair
  subst hvs
  subst hd2
  exact ⟨e2, htoe, hp2, hl2⟩

/-- C10 witness: a scalar-then-array decode over a 6-byte region, checked at
a concrete cursor. -/
theorem end_region_invariant_witness :
    (∀ t ∈ [Ty.scalar 2, Ty.array 1 3], t ≠ Ty.cstring) ∧
    ∃ vs d2,
      deserializer.to ⟨[1, 2, 3, 4, 5, 6], 0, 6⟩ [Ty.scalar 2, Ty.array 1 3]
        = some (vs, d2) ∧
      d2.data = [1, 2, 3, 4, 5, 6] ∧
      d2.pos + d2.len = 0 + 6 ∧
      d2.len ≤ 6 ∧
      ∀ e : deserializer, e.pos = 0 → e.len = 6 →
        e.data.take (0 + 6) = ([1, 2, 3, 4, 5, 6] : List Byte).take (0 + 6) →
        ∃ e2, deserializer.to e [Ty.scalar 2, Ty.array 1 3] = some (vs, e2) ∧
          e2.pos = d2.pos ∧ e2.len = d2.len :=
  ⟨by decide,
   end_region_invariant [Ty.scalar 2, Ty.array 1 3] (by decide)
     ⟨[1, 2, 3, 4, 5, 6], 0, 6⟩⟩

end Eser
